import Mathlib

/-
Formal model of the autofocus control subsystem of the Automated-Microscopy
repository (files `app.py` and `3step_snapshot_dataset_collector.py`).

The Python code is shallowly embedded:
* free-text reply parsing (`get_position_from_response`, the `Max limit:` scan
  and the homing-marker check) is modelled character-by-character on
  `List Char`, mirroring the semantics of `re.search`, `str.split`,
  `str.strip`, `str.splitlines` (replies are joined with a single newline by
  `arduino_send`, so splitting on the newline character is exact here) and
  `int()` (modelled as an optional sign followed by decimal digits);
* the polling loops (`confirm_move`, the homing wait, the capture loop) are
  modelled with an explicit fuel argument that provably exceeds the number of
  iterations the Python loop can perform, so the model is exact for the
  parameters the program uses (positive step sizes, 0.5 s poll interval);
  time is counted in tenths of a second, so one poll costs 5 and the default
  8 s timeout is 80;
* camera frames are abstracted to their Tenengrad focus scores (rationals);
  the capture/score phases communicate only through the number of frames and
  the score of each frame, exactly as the video round-trip does in the code;
* Python list indexing (`frame_positions[best_idx]`, `frame_positions[-1]`)
  is modelled including negative-index semantics and the `IndexError` raised
  on an out-of-range access, via `Except`.
-/

namespace Microscopy

/-! ### Character-level parsing primitives -/

/-- Python `\s` / `str.strip` whitespace (ASCII part). -/
def pyIsSpace (c : Char) : Bool :=
  c = ' ' || c = '\t' || c = '\n' || c = '\r' || c = '\x0b' || c = '\x0c'

/-- Value of a run of decimal digits. -/
def digitsToNat (ds : List Char) : ℕ :=
  ds.foldl (fun n c => 10 * n + (c.toNat - 48)) 0

/-- Value of a nonempty all-digit string, `none` otherwise. -/
def digitsVal (ds : List Char) : Option ℕ :=
  if ds.isEmpty then none
  else if ds.all Char.isDigit then some (digitsToNat ds) else none

/-- Python `int(s)` on an already stripped string: optional sign followed by
decimal digits; any other shape raises `ValueError`, modelled as `none`. -/
def parseIntPy (cs : List Char) : Option ℤ :=
  match cs with
  | '-' :: ds => (digitsVal ds).map (fun n => -(n : ℤ))
  | '+' :: ds => (digitsVal ds).map (fun n => (n : ℤ))
  | ds => (digitsVal ds).map (fun n => (n : ℤ))

/-- Python `str.strip()`: drop leading and trailing whitespace. -/
def pyStrip (cs : List Char) : List Char :=
  ((cs.dropWhile pyIsSpace).reverse.dropWhile pyIsSpace).reverse

/-- Split a character list on every occurrence of a separator character
(the semantics of Python `str.split(sep)` for a one-character separator). -/
def splitOnChar (sep : Char) : List Char → List (List Char)
  | [] => [[]]
  | c :: cs =>
    if c = sep then [] :: splitOnChar sep cs
    else
      match splitOnChar sep cs with
      | [] => [[c]]
      | l :: ls => (c :: l) :: ls

/-- The characters after the first occurrence of `pat`, or `none` when `pat`
does not occur (`pat in s` is `(afterFirst pat s).isSome`). -/
def afterFirst (pat : List Char) : List Char → Option (List Char)
  | [] => none
  | c :: rest =>
    if pat.isPrefixOf (c :: rest) then some ((c :: rest).drop pat.length)
    else afterFirst pat rest

/-- The characters before the next occurrence of `pat` (the whole input when
`pat` does not occur again); together with `afterFirst` this models Python
`s.split(pat)[1]`. -/
def takeUntilPat (pat : List Char) : List Char → List Char
  | [] => []
  | c :: rest =>
    if pat.isPrefixOf (c :: rest) then [] else c :: takeUntilPat pat rest

/-- Python `pat in s` (substring containment). -/
def pyContains (pat : List Char) : List Char → Bool
  | [] => pat.isEmpty
  | c :: rest => pat.isPrefixOf (c :: rest) || pyContains pat rest

/-! ### Response parser: `get_position_from_response`
(`3step_snapshot_dataset_collector.py`, `re.search(r'Position:\s*(\d+)', resp)`) -/

def posPat : List Char := "Position:".toList

/-- Try to match the regex `Position:\s*(\d+)` anchored at the start of `cs`:
the literal marker, then greedy whitespace, then a maximal nonempty digit run
(whitespace and digits are disjoint, so the greedy `\s*` never needs to
backtrack). -/
def matchPosAt (cs : List Char) : Option ℕ :=
  if posPat.isPrefixOf cs then
    let ds := ((cs.drop posPat.length).dropWhile pyIsSpace).takeWhile Char.isDigit
    if ds.isEmpty then none else some (digitsToNat ds)
  else none

/-- `re.search` semantics: scan left to right, return the leftmost match. -/
def searchPos : List Char → Option ℕ
  | [] => none
  | c :: rest =>
    match matchPosAt (c :: rest) with
    | some v => some v
    | none => searchPos rest

/-- `get_position_from_response(resp)` from
`3step_snapshot_dataset_collector.py`. -/
def get_position_from_response (resp : String) : Option ℕ :=
  searchPos resp.toList

/-! ### Travel-limit extraction (`app.py`, the `Max limit:` loop) -/

def mlPat : List Char := "Max limit:".toList

/-- What one iteration of the `Max limit:` loop extracts from one line:
`int(line.split('Max limit:')[1].strip())` when `'Max limit:' in line` and the
conversion succeeds, `none` otherwise (the `except` clause keeps the previous
value). -/
def lineLimitVal (line : List Char) : Option ℤ :=
  match afterFirst mlPat line with
  | none => none
  | some rest => parseIntPy (pyStrip (takeUntilPat mlPat rest))

/-- The whole `max_steps` computation of `autofocus_sweep`: fold over the
lines of the reply, each successfully parsed `Max limit:` line overwriting the
current value, starting from the hardcoded default 9000. -/
def maxLimitParse (resp : String) : ℤ :=
  (splitOnChar '\n' resp.toList).foldl
    (fun acc line => (lineLimitVal line).getD acc) 9000

/-! ### Homing wait (`app.py`, the `for _ in range(60)` loop) -/

/-- `'Homing complete.' in resp or 'homed' in resp.lower()`. -/
def hasHomingMarker (resp : String) : Bool :=
  pyContains "Homing complete.".toList resp.toList ||
    pyContains "homed".toList (resp.toList.map Char.toLower)

/-- The homing wait loop: `r i` is the reply to the `i`-th status query;
returns the `homed` flag and the number of polls performed. -/
def homingLoop (r : ℕ → String) : ℕ → ℕ → Bool × ℕ
  | 0, i => (false, i)
  | fuel + 1, i =>
    if hasHomingMarker (r i) then (true, i + 1) else homingLoop r fuel (i + 1)

/-! ### Position confirmation (`confirm_move` in
`3step_snapshot_dataset_collector.py`)

`ch k` is the parsed position of the `k`-th poll: `none` when the reply was
empty or no `Position:` pattern matched, `some p` otherwise.  Time is in
tenths of a second; each iteration costs one 0.5 s sleep, so the elapsed time
before poll `k` is `5 * k`.  The fuel `timeout + 1` strictly exceeds the
number of iterations the `while` loop can perform (`⌈timeout / 5⌉`), so the
fuel-exhaustion branch is unreachable and the model is exact; that branch
returns the same timed-out result as the loop exit for uniformity. -/
def confirmLoop (ch : ℕ → Option ℕ) (timeout : ℕ) :
    ℕ → ℕ → ℕ → Option ℕ → Bool × Option ℕ
  | 0, _, _, last => (false, last)
  | fuel + 1, elapsed, k, last =>
    if elapsed < timeout then
      match ch k, last with
      | some pos, some l =>
        if pos = l then confirmLoop ch timeout fuel (elapsed + 5) (k + 1) last
        else (true, some pos)
      | some pos, none => confirmLoop ch timeout fuel (elapsed + 5) (k + 1) (some pos)
      | none, _ => confirmLoop ch timeout fuel (elapsed + 5) (k + 1) last
    else (false, last)

/-- `confirm_move(ser, timeout, prev_position)`: the boolean is `true` when
the move was confirmed (early return with the changed position) and `false`
on the warning/timeout path, which returns the last known position. -/
def confirm_move (ch : ℕ → Option ℕ) (timeout : ℕ) (prev : Option ℕ) :
    Bool × Option ℕ :=
  confirmLoop ch timeout (timeout + 1) 0 0 prev

/-! ### The capture loop of `autofocus_sweep` -/

/-- One sweep capture loop: starting from `pos` with the `i`-th camera read,
record `pos` whenever the read succeeds, stop on the first failed read or
once `pos` exceeds `ms`.  `reads i` is the success flag of the `i`-th
`cap.read()`. -/
def captureLoopF (reads : ℕ → Bool) (ms : ℤ) (s : ℕ) :
    ℕ → ℤ → ℕ → List ℤ
  | 0, _, _ => []
  | fuel + 1, pos, i =>
    if pos ≤ ms then
      if reads i then pos :: captureLoopF reads ms s fuel (pos + s) (i + 1)
      else []
    else []

/-- The capture loop from position 0.  For a positive step size the loop
performs at most `ms + 1` iterations, so the fuel `ms.toNat + 1` is never
exhausted and the model is exact. -/
def captureLoop (reads : ℕ → Bool) (ms : ℤ) (s : ℕ) : List ℤ :=
  captureLoopF reads ms s (ms.toNat + 1) 0 0

/-! ### Focus scoring scan (`best_idx` / `best_score` loop) -/

/-- One iteration of the scoring loop on the state
`(best_idx, best_score, idx)`: `if score > best_score: best_score = score;
best_idx = idx`, then `idx += 1`. -/
def scanStep (st : ℤ × ℚ × ℕ) (s : ℚ) : ℤ × ℚ × ℕ :=
  if st.2.1 < s then ((st.2.2 : ℤ), s, st.2.2 + 1)
  else (st.1, st.2.1, st.2.2 + 1)

/-- The scoring scan: fold `scanStep` over the frame scores starting from
`best_idx = -1`, `best_score = -1.0`, `idx = 0`; returns
`(best_idx, best_score)`. -/
def bestScan (scores : List ℚ) : ℤ × ℚ :=
  ((scores.foldl scanStep (-1, -1, 0)).1, (scores.foldl scanStep (-1, -1, 0)).2.1)

/-! ### Best-focus corrector (the last lines of `autofocus_sweep`) -/

/-- Python list indexing `l[i]`, including negative-index semantics and the
`IndexError` raised on an out-of-range access. -/
def pyGet (l : List ℤ) (i : ℤ) : Except String ℤ :=
  let j : ℤ := if i < 0 then i + l.length else i
  if 0 ≤ j ∧ j < l.length then Except.ok (l.getD j.toNat 0)
  else Except.error "list index out of range"

/-- `target_pos = frame_positions[best_idx] if best_idx < len(frame_positions)
else 0` followed by `delta = target_pos - frame_positions[-1]`; returns
`(target_pos, delta)` or the uncaught `IndexError`. -/
def correctorPhase (ps : List ℤ) (bi : ℤ) : Except String (ℤ × ℤ) :=
  match (if bi < (ps.length : ℤ) then pyGet ps bi else Except.ok 0) with
  | Except.error e => Except.error e
  | Except.ok t =>
    match pyGet ps (-1) with
    | Except.error e => Except.error e
    | Except.ok last => Except.ok (t, t - last)

/-! ### The whole sweep -/

/-- The environment one call of `autofocus_sweep` runs against.
`homingReplies i` is the reply to the `i`-th homing status query,
`limitReply` the reply to the subsequent status query, `reads i` the success
flag of the `i`-th camera read during capture, and `scores i` the Tenengrad
focus score of the `i`-th captured frame (the video writer/reader round-trip
hands the scoring loop exactly the captured frames, in order). -/
structure SweepEnv where
  homingReplies : ℕ → String
  limitReply : String
  cameraOpens : Bool
  reads : ℕ → Bool
  scores : ℕ → ℚ

/-- The discriminated outcome of one sweep: the `{'error': ...}` dictionary,
an uncaught Python exception, or the success dictionary (its `frames`,
`best_idx` and `best_score` entries; the remaining entries merely echo the
arguments). -/
inductive SweepResult where
  | error (msg : String)
  | crash (msg : String)
  | ok (frames : ℕ) (bestIdx : ℤ) (bestScore : ℚ)
deriving DecidableEq

/-- `max_steps` for this sweep. -/
def sweepMaxSteps (env : SweepEnv) : ℤ := maxLimitParse env.limitReply

/-- `frame_positions` for this sweep. -/
def sweepPositions (env : SweepEnv) (stepSize : ℕ) : List ℤ :=
  captureLoop env.reads (sweepMaxSteps env) stepSize

/-- The `scores` list of the analysis loop: one Tenengrad score per captured
frame, in capture order. -/
def sweepScores (env : SweepEnv) (stepSize : ℕ) : List ℚ :=
  (List.range (sweepPositions env stepSize).length).map env.scores

/-- `autofocus_sweep(objective, step_size)` from `app.py`, as a function of
its serial/camera environment: returns the discriminated result together with
the list of corrective `G<delta>` moves issued after the sweep (empty when
the camera fails to open or the corrector raises, a single delta otherwise).
The homing flag is computed exactly as in the source and, as in the source,
never read afterwards. -/
def autofocus_sweep (env : SweepEnv) (stepSize : ℕ) : SweepResult × List ℤ :=
  let _homed := (homingLoop env.homingReplies 60 0).1
  if env.cameraOpens = false then (SweepResult.error "Could not open camera", [])
  else
    match correctorPhase (sweepPositions env stepSize)
        (bestScan (sweepScores env stepSize)).1 with
    | Except.error e => (SweepResult.crash e, [])
    | Except.ok td =>
      (SweepResult.ok (sweepPositions env stepSize).length
        (bestScan (sweepScores env stepSize)).1
        (bestScan (sweepScores env stepSize)).2, [td.2])

/-! ### Concrete environments and channels used by the witnesses -/

/-- A sweep in which the camera opens but the very first read fails: zero
frames are captured. -/
def envZeroFrames : SweepEnv :=
  ⟨fun _ => "", "", true, fun _ => false, fun _ => 0⟩

/-- A sweep with travel limit 4000, step 200, all reads succeeding, whose
sharpest frame is the one captured at position 3400 (index 17). -/
def envBest3400 : SweepEnv :=
  ⟨fun _ => "", "Max limit: 4000", true, fun _ => true,
    fun i => if i = 17 then 5 else 1⟩

/-- A synthetic confirmation channel: position 100 on the first two polls,
150 afterwards. -/
def chEx : ℕ → Option ℕ := fun k => if k < 2 then some 100 else some 150

/-- A synthetic homing-reply sequence: busy twice, then homing complete. -/
def rHomeEx : ℕ → String := fun i => if i < 2 then "busy" else "Homing complete."

/-! ## Helper lemmas -/

theorem matchPosAt_nil : matchPosAt [] = none := by decide

/-- `searchPos` returns the leftmost match: if the pattern matches at offset
`k` and at no earlier offset, the scan returns the value matched at `k`. -/
theorem searchPos_first :
    ∀ (cs : List Char) (k v : ℕ),
      matchPosAt (cs.drop k) = some v →
      (∀ j, j < k → matchPosAt (cs.drop j) = none) →
      searchPos cs = some v := by
  intro cs
  induction cs with
  | nil =>
    intro k v hk _
    rw [List.drop_nil, matchPosAt_nil] at hk
    exact absurd hk (by simp)
  | cons c rest ih =>
    intro k v hk hbefore
    cases k with
    | zero =>
      rw [List.drop_zero] at hk
      simp [searchPos, hk]
    | succ k =>
      have h0 : matchPosAt (c :: rest) = none := by
        have h := hbefore 0 (Nat.succ_pos k)
        rwa [List.drop_zero] at h
      have hstep : searchPos (c :: rest) = searchPos rest := by
        simp [searchPos, h0]
      rw [hstep]
      apply ih k v
      · rwa [List.drop_succ_cons] at hk
      · intro j hj
        have h := hbefore (j + 1) (Nat.succ_lt_succ hj)
        rwa [List.drop_succ_cons] at h

/-- Folding the `Max limit:` update over lines with no parseable match keeps
the accumulator. -/
theorem limitFold_none :
    ∀ (ls : List (List Char)) (acc : ℤ),
      (∀ l ∈ ls, lineLimitVal l = none) →
      ls.foldl (fun acc line => (lineLimitVal line).getD acc) acc = acc := by
  intro ls
  induction ls with
  | nil => intro acc _; rfl
  | cons l ls ih =>
    intro acc h
    have hl : lineLimitVal l = none := h l (List.mem_cons_self l ls)
    have hrest : ∀ x ∈ ls, lineLimitVal x = none :=
      fun x hx => h x (List.mem_cons_of_mem l hx)
    simp only [List.foldl_cons, hl, Option.getD_none]
    exact ih acc hrest

/-- Folding the `Max limit:` update over the lines yields the value of the
last line whose match parses, whatever the starting accumulator. -/
theorem limitFold_last :
    ∀ (ls : List (List Char)) (acc : ℤ) (i : ℕ) (hi : i < ls.length) (v : ℤ),
      lineLimitVal (ls.get ⟨i, hi⟩) = some v →
      (∀ j (hj : j < ls.length), i < j → lineLimitVal (ls.get ⟨j, hj⟩) = none) →
      ls.foldl (fun acc line => (lineLimitVal line).getD acc) acc = v := by
  intro ls
  induction ls with
  | nil => intro acc i hi; exact absurd hi (by simp)
  | cons l ls ih =>
    intro acc i hi v hv hafter
    cases i with
    | zero =>
      have hl : lineLimitVal l = some v := hv
      simp only [List.foldl_cons, hl, Option.getD_some]
      apply limitFold_none
      intro x hx
      obtain ⟨⟨j, hj⟩, rfl⟩ := List.mem_iff_get.mp hx
      have := hafter (j + 1) (Nat.succ_lt_succ hj) (Nat.succ_pos j)
      simpa using this
    | succ i =>
      simp only [List.foldl_cons]
      apply ih _ i (Nat.lt_of_succ_lt_succ hi) v
      · simpa using hv
      · intro j hj hij
        have := hafter (j + 1) (Nat.succ_lt_succ hj) (Nat.succ_lt_succ hij)
        simpa using this

/-- When every poll reports the last known position (or nothing), the
confirmation loop always ends on the timed-out branch with the last known
position, from any intermediate state. -/
theorem confirmLoop_stable (ch : ℕ → Option ℕ) (timeout l : ℕ)
    (h : ∀ k, ch k = some l ∨ ch k = none) :
    ∀ (fuel elapsed k : ℕ),
      confirmLoop ch timeout fuel elapsed k (some l) = (false, some l) := by
  intro fuel
  induction fuel with
  | zero => intro elapsed k; rfl
  | succ fuel ih =>
    intro elapsed k
    by_cases he : elapsed < timeout
    · rcases h k with hk | hk
      · simp [confirmLoop, he, hk, ih]
      · simp [confirmLoop, he, hk, ih]
    · simp [confirmLoop, he]

/-- Running the confirmation loop through `n` polls that all report the last
known position (or nothing), all within the timeout window, advances the
state without confirming. -/
theorem confirmLoop_advance (ch : ℕ → Option ℕ) (timeout l : ℕ) :
    ∀ (n fuel elapsed k : ℕ),
      (∀ j, k ≤ j → j < k + n → (ch j = some l ∨ ch j = none)) →
      (∀ j, j < n → elapsed + 5 * j < timeout) →
      n ≤ fuel →
      confirmLoop ch timeout fuel elapsed k (some l) =
        confirmLoop ch timeout (fuel - n) (elapsed + 5 * n) (k + n) (some l) := by
  intro n
  induction n with
  | zero => intro fuel elapsed k _ _ _; simp
  | succ n ih =>
    intro fuel elapsed k hch hwin hfuel
    obtain ⟨f, rfl⟩ : ∃ f, fuel = f + 1 := ⟨fuel - 1, by omega⟩
    have he : elapsed < timeout := by
      have := hwin 0 (Nat.succ_pos n); simpa using this
    have hk : ch k = some l ∨ ch k = none := hch k le_rfl (by omega)
    have hrec : confirmLoop ch timeout (f + 1) elapsed k (some l) =
        confirmLoop ch timeout f (elapsed + 5) (k + 1) (some l) := by
      rcases hk with hk | hk
      · simp [confirmLoop, he, hk]
      · simp [confirmLoop, he, hk]
    have e1 : f + 1 - (n + 1) = f - n := by omega
    have e2 : elapsed + 5 * (n + 1) = elapsed + 5 + 5 * n := by ring
    have e3 : k + (n + 1) = k + 1 + n := by omega
    rw [hrec, e1, e2, e3]
    exact ih f (elapsed + 5) (k + 1)
      (fun j h1 h2 => hch j (by omega) (by omega))
      (fun j hj => by have := hwin (j + 1) (by omega); omega)
      (by omega)

/-- The homing loop performs at most `fuel` polls beyond the `i` already
counted. -/
theorem homingLoop_poll_bound (r : ℕ → String) :
    ∀ (fuel i : ℕ), (homingLoop r fuel i).2 ≤ i + fuel := by
  intro fuel
  induction fuel with
  | zero => intro i; simp [homingLoop]
  | succ fuel ih =>
    intro i
    by_cases h : hasHomingMarker (r i)
    · simp [homingLoop, h]
    · simp only [homingLoop, h, Bool.false_eq_true, if_false]
      have := ih (i + 1)
      omega

/-- The homing loop stops on the first reply carrying the marker. -/
theorem homingLoop_first_marker (r : ℕ → String) :
    ∀ (k fuel i : ℕ), k < fuel → hasHomingMarker (r (i + k)) = true →
      (∀ j, j < k → hasHomingMarker (r (i + j)) = false) →
      homingLoop r fuel i = (true, i + k + 1) := by
  intro k
  induction k with
  | zero =>
    intro fuel i hk hm _
    obtain ⟨f, rfl⟩ : ∃ f, fuel = f + 1 := ⟨fuel - 1, by omega⟩
    rw [Nat.add_zero] at hm
    simp [homingLoop, hm]
  | succ k ih =>
    intro fuel i hk hm hbefore
    obtain ⟨f, rfl⟩ : ∃ f, fuel = f + 1 := ⟨fuel - 1, by omega⟩
    have h0 : hasHomingMarker (r i) = false := by
      have := hbefore 0 (Nat.succ_pos k)
      simpa using this
    have step : homingLoop r (f + 1) i = homingLoop r f (i + 1) := by
      simp [homingLoop, h0]
    rw [step]
    have hm2 : hasHomingMarker (r (i + 1 + k)) = true := by
      rw [show i + 1 + k = i + (k + 1) from by omega]; exact hm
    have hb2 : ∀ j, j < k → hasHomingMarker (r (i + 1 + j)) = false := by
      intro j hj
      rw [show i + 1 + j = i + (j + 1) from by omega]
      exact hbefore (j + 1) (by omega)
    have := ih f (i + 1) (by omega) hm2 hb2
    rw [this]
    congr 1
    omega

/-- The homing loop without any marker reply runs out its budget with the
flag still false. -/
theorem homingLoop_no_marker (r : ℕ → String)
    (h : ∀ j, hasHomingMarker (r j) = false) :
    ∀ (fuel i : ℕ), homingLoop r fuel i = (false, i + fuel) := by
  intro fuel
  induction fuel with
  | zero => intro i; rfl
  | succ fuel ih =>
    intro i
    have step : homingLoop r (fuel + 1) i = homingLoop r fuel (i + 1) := by
      simp [homingLoop, h i]
    rw [step, ih (i + 1)]
    congr 1
    omega

/-- Every list produced by the capture loop lies between its start position
and the travel limit, and is pairwise non-decreasing. -/
theorem captureLoopF_props (reads : ℕ → Bool) (ms : ℤ) (s : ℕ) :
    ∀ (fuel : ℕ) (pos : ℤ) (i : ℕ),
      (∀ p ∈ captureLoopF reads ms s fuel pos i, pos ≤ p ∧ p ≤ ms) ∧
      (captureLoopF reads ms s fuel pos i).Pairwise (· ≤ ·) := by
  intro fuel
  induction fuel with
  | zero => intro pos i; exact ⟨by simp [captureLoopF], by simp [captureLoopF]⟩
  | succ fuel ih =>
    intro pos i
    have hs0 : (0 : ℤ) ≤ (s : ℤ) := Int.natCast_nonneg s
    by_cases hle : pos ≤ ms
    · by_cases hr : reads i = true
      · have hrw : captureLoopF reads ms s (fuel + 1) pos i =
            pos :: captureLoopF reads ms s fuel (pos + s) (i + 1) := by
          simp [captureLoopF, hle, hr]
        obtain ⟨ihmem, ihpw⟩ := ih (pos + s) (i + 1)
        rw [hrw]
        constructor
        · intro p hp
          rcases List.mem_cons.mp hp with rfl | hp
          · exact ⟨le_refl _, hle⟩
          · have h := ihmem p hp
            exact ⟨by linarith [h.1], h.2⟩
        · refine List.pairwise_cons.mpr ⟨?_, ihpw⟩
          intro b hb
          have h := (ihmem b hb).1
          linarith
      · have hrw : captureLoopF reads ms s (fuel + 1) pos i = [] := by
          simp [captureLoopF, hle, hr]
        rw [hrw]
        exact ⟨by simp, List.Pairwise.nil⟩
    · have hrw : captureLoopF reads ms s (fuel + 1) pos i = [] := by
        simp [captureLoopF, hle]
      rw [hrw]
      exact ⟨by simp, List.Pairwise.nil⟩

/-- In a pairwise non-decreasing list every element is at most the last. -/
theorem pairwise_le_getLast :
    ∀ (l : List ℤ) (hne : l ≠ []), l.Pairwise (· ≤ ·) →
      ∀ x ∈ l, x ≤ l.getLast hne := by
  intro l
  induction l with
  | nil => intro hne; exact absurd rfl hne
  | cons a t ih =>
    intro hne hp x hx
    cases t with
    | nil =>
      have hxa : x = a := by simpa using hx
      simp [hxa, List.getLast]
    | cons b t2 =>
      have hne2 : (b :: t2) ≠ [] := by simp
      rw [List.getLast_cons hne2]
      rcases List.mem_cons.mp hx with rfl | hx2
      · have hmem : (b :: t2).getLast hne2 ∈ b :: t2 := List.getLast_mem hne2
        exact (List.pairwise_cons.mp hp).1 _ hmem
      · exact ih hne2 (List.pairwise_cons.mp hp).2 x hx2

/-- Python indexing with a valid non-negative index. -/
theorem pyGet_nonneg (l : List ℤ) (m : ℕ) (hm : m < l.length) :
    pyGet l (m : ℤ) = Except.ok (l.get ⟨m, hm⟩) := by
  have h0 : ¬ ((m : ℤ) < 0) := by omega
  have h1 : (0 : ℤ) ≤ (m : ℤ) ∧ (m : ℤ) < (l.length : ℤ) :=
    ⟨by omega, by exact_mod_cast hm⟩
  simp only [pyGet, h0, if_false, if_pos h1, Int.toNat_natCast]
  rw [List.getD_eq_get l 0 hm]

/-- Python indexing at `-1` returns the last element of a nonempty list. -/
theorem pyGet_neg_one (l : List ℤ) (hne : l ≠ []) :
    pyGet l (-1) = Except.ok (l.getLast hne) := by
  have hlen : 0 < l.length := List.length_pos.mpr hne
  have hneg : ((-1 : ℤ) < 0) := by omega
  have hcond : (0 : ℤ) ≤ (-1 : ℤ) + (l.length : ℤ) ∧
      (-1 : ℤ) + (l.length : ℤ) < (l.length : ℤ) := by
    constructor <;> omega
  have htn : ((-1 : ℤ) + (l.length : ℤ)).toNat = l.length - 1 := by omega
  have hlt : l.length - 1 < l.length := by omega
  simp only [pyGet, hneg, if_true, if_pos hcond, htn]
  rw [List.getD_eq_get l 0 hlt, List.getLast_eq_get l hne]

/-- The scoring scan never produces an index below `-1`. -/
theorem bestScan_idx_ge (scores : List ℚ) : -1 ≤ (bestScan scores).1 := by
  suffices h : ∀ (rest : List ℚ) (st : ℤ × ℚ × ℕ), -1 ≤ st.1 →
      -1 ≤ (rest.foldl scanStep st).1 by
    exact h scores (-1, -1, 0) (by norm_num)
  intro rest
  induction rest with
  | nil => intro st h; exact h
  | cons sc rest ih =>
    intro st h
    rw [List.foldl_cons]
    apply ih
    by_cases hc : st.2.1 < sc
    · simp only [scanStep, hc, if_true]
      have : (0 : ℤ) ≤ (st.2.2 : ℤ) := Int.natCast_nonneg _
      omega
    · simpa [scanStep, hc] using h

/-- The generic corrector fact: for a capture-loop position list and any
best index the scoring scan can produce (`-1 ≤ bi`), the corrector returns a
target/delta pair with a non-positive delta. -/
theorem correctorPhase_delta_nonpos (env : SweepEnv) (s : ℕ)
    (hne : sweepPositions env s ≠ []) (bi : ℤ) (hbi : -1 ≤ bi) :
    ∃ t d, correctorPhase (sweepPositions env s) bi = Except.ok (t, d) ∧
      d ≤ 0 := by
  obtain ⟨hmem, hpw⟩ :=
    captureLoopF_props env.reads (sweepMaxSteps env) s
      ((sweepMaxSteps env).toNat + 1) 0 0
  have hmem2 : ∀ p ∈ sweepPositions env s, 0 ≤ p ∧ p ≤ sweepMaxSteps env := hmem
  have hpw2 : (sweepPositions env s).Pairwise (· ≤ ·) := hpw
  have hlast := List.getLast_mem hne
  have hlast0 : 0 ≤ (sweepPositions env s).getLast hne := (hmem2 _ hlast).1
  have hles : ∀ x ∈ sweepPositions env s,
      x ≤ (sweepPositions env s).getLast hne :=
    pairwise_le_getLast _ hne hpw2
  by_cases hguard : bi < ((sweepPositions env s).length : ℤ)
  · by_cases hbi0 : 0 ≤ bi
    · obtain ⟨m, rfl⟩ : ∃ m : ℕ, bi = (m : ℤ) := ⟨bi.toNat, by omega⟩
      have hm : m < (sweepPositions env s).length := by exact_mod_cast hguard
      refine ⟨(sweepPositions env s).get ⟨m, hm⟩,
        (sweepPositions env s).get ⟨m, hm⟩ -
          (sweepPositions env s).getLast hne, ?_, ?_⟩
      · simp only [correctorPhase, if_pos hguard, pyGet_nonneg _ _ hm,
          pyGet_neg_one _ hne]
      · have := hles _ (List.get_mem (sweepPositions env s) m hm)
        omega
    · have hbi1 : bi = -1 := by omega
      subst hbi1
      refine ⟨(sweepPositions env s).getLast hne, 0, ?_, le_refl 0⟩
      have hok := pyGet_neg_one (sweepPositions env s) hne
      simp only [correctorPhase, if_pos hguard, hok]
      congr 2
      omega
  · refine ⟨0, 0 - (sweepPositions env s).getLast hne, ?_, by omega⟩
    simp only [correctorPhase, if_neg hguard, pyGet_neg_one _ hne]

/-- Invariant of the scoring fold from an arbitrary state `(b, bs, i)`:
the counter advances by the number of elements; the running best score never
decreases; every element is at most the final best score; if no element
beats `bs` the pair `(b, bs)` survives; and if some element beats `bs` the
final index points at the first element attaining the final best score,
every earlier element being strictly smaller. -/
theorem scan_aux :
    ∀ (rest : List ℚ) (b : ℤ) (bs : ℚ) (i : ℕ),
      ((rest.foldl scanStep (b, bs, i)).2.2 = i + rest.length) ∧
      (bs ≤ (rest.foldl scanStep (b, bs, i)).2.1) ∧
      (∀ j (hj : j < rest.length),
        rest.get ⟨j, hj⟩ ≤ (rest.foldl scanStep (b, bs, i)).2.1) ∧
      ((∀ j (hj : j < rest.length), rest.get ⟨j, hj⟩ ≤ bs) →
        (rest.foldl scanStep (b, bs, i)).1 = b ∧
        (rest.foldl scanStep (b, bs, i)).2.1 = bs) ∧
      (∀ j0 (hj0 : j0 < rest.length), bs < rest.get ⟨j0, hj0⟩ →
        ∃ m, ∃ hm : m < rest.length,
          (rest.foldl scanStep (b, bs, i)).1 = ((i + m : ℕ) : ℤ) ∧
          (rest.foldl scanStep (b, bs, i)).2.1 = rest.get ⟨m, hm⟩ ∧
          ∀ j (hj : j < rest.length), j < m →
            rest.get ⟨j, hj⟩ < rest.get ⟨m, hm⟩) := by
  intro rest
  induction rest with
  | nil =>
    intro b bs i
    refine ⟨by simp, le_refl bs, ?_, ?_, ?_⟩
    · intro j hj; exact absurd hj (by simp)
    · intro _; exact ⟨rfl, rfl⟩
    · intro j0 hj0; exact absurd hj0 (by simp)
  | cons sc rest ih =>
    intro b bs i
    rw [List.foldl_cons]
    by_cases hc : bs < sc
    · have hstep : scanStep (b, bs, i) sc = ((i : ℤ), sc, i + 1) := by
        simp [scanStep, hc]
      rw [hstep]
      obtain ⟨ih1, ih2, ih3, ih4, ih5⟩ := ih (i : ℤ) sc (i + 1)
      refine ⟨?_, ?_, ?_, ?_, ?_⟩
      · rw [ih1]; simp [List.length_cons]; omega
      · exact le_of_lt (lt_of_lt_of_le hc ih2)
      · intro j hj
        cases j with
        | zero => simpa using ih2
        | succ j =>
          have hj2 : j < rest.length := by simpa using hj
          simpa using ih3 j hj2
      · intro hall
        have hsc : sc ≤ bs := by simpa using hall 0 (by simp)
        exact absurd hc (not_lt.mpr hsc)
      · intro j0 hj0 hbreak
        by_cases hall : ∀ j (hj : j < rest.length), rest.get ⟨j, hj⟩ ≤ sc
        · obtain ⟨e1, e2⟩ := ih4 hall
          refine ⟨0, by simp, ?_, ?_, ?_⟩
          · rw [e1]; simp
          · rw [e2]; simp
          · intro j hj hj0z; exact absurd hj0z (Nat.not_lt_zero j)
        · push_neg at hall
          obtain ⟨j1, hj1, hgt⟩ := hall
          obtain ⟨m, hm, e1, e2, e3⟩ := ih5 j1 hj1 hgt
          refine ⟨m + 1, by simpa using Nat.succ_lt_succ hm, ?_, ?_, ?_⟩
          · rw [e1]; push_cast; ring
          · rw [e2]; simp
          · intro j hj hjm
            cases j with
            | zero =>
              have h1 : rest.get ⟨j1, hj1⟩ ≤ rest.get ⟨m, hm⟩ := by
                have h2 := ih3 j1 hj1
                rwa [e2] at h2
              have h3 : sc < rest.get ⟨m, hm⟩ := lt_of_lt_of_le hgt h1
              simpa using h3
            | succ j =>
              have hjr : j < rest.length := by simpa using hj
              have := e3 j hjr (by omega)
              simpa using this
    · have hstep : scanStep (b, bs, i) sc = (b, bs, i + 1) := by
        simp [scanStep, hc]
      rw [hstep]
      obtain ⟨ih1, ih2, ih3, ih4, ih5⟩ := ih b bs (i + 1)
      have hscbs : sc ≤ bs := not_lt.mp hc
      refine ⟨?_, ih2, ?_, ?_, ?_⟩
      · rw [ih1]; simp [List.length_cons]; omega
      · intro j hj
        cases j with
        | zero => simpa using le_trans hscbs ih2
        | succ j =>
          have hj2 : j < rest.length := by simpa using hj
          simpa using ih3 j hj2
      · intro hall
        apply ih4
        intro j hj
        have := hall (j + 1) (by simpa using Nat.succ_lt_succ hj)
        simpa using this
      · intro j0 hj0 hbreak
        cases j0 with
        | zero =>
          have : bs < sc := by simpa using hbreak
          exact absurd this hc
        | succ j0 =>
          have hj0r : j0 < rest.length := by simpa using hj0
          have hbreak2 : bs < rest.get ⟨j0, hj0r⟩ := by
            have := hbreak
            simpa using this
          obtain ⟨m, hm, e1, e2, e3⟩ := ih5 j0 hj0r hbreak2
          refine ⟨m + 1, by simpa using Nat.succ_lt_succ hm, ?_, ?_, ?_⟩
          · rw [e1]; push_cast; ring
          · rw [e2]; simp
          · intro j hj hjm
            cases j with
            | zero =>
              have h1 : rest.get ⟨j0, hj0r⟩ ≤ rest.get ⟨m, hm⟩ := by
                have h2 := ih3 j0 hj0r
                rwa [e2] at h2
              have h3 : sc < rest.get ⟨m, hm⟩ :=
                lt_of_le_of_lt hscbs (lt_of_lt_of_le hbreak2 h1)
              simpa using h3
            | succ j =>
              have hjr : j < rest.length := by simpa using hj
              have := e3 j hjr (by omega)
              simpa using this

/-- The scoring scan on a nonempty list of non-negative scores returns the
index of the first maximal score, together with that score. -/
theorem bestScan_spec (scores : List ℚ) (hne : scores ≠ [])
    (hnn : ∀ x ∈ scores, 0 ≤ x) :
    ∃ m, ∃ hm : m < scores.length,
      (bestScan scores).1 = (m : ℤ) ∧
      (bestScan scores).2 = scores.get ⟨m, hm⟩ ∧
      (∀ j (hj : j < scores.length),
        scores.get ⟨j, hj⟩ ≤ scores.get ⟨m, hm⟩) ∧
      (∀ j (hj : j < scores.length), j < m →
        scores.get ⟨j, hj⟩ < scores.get ⟨m, hm⟩) := by
  obtain ⟨a1, a2, a3, a4, a5⟩ := scan_aux scores (-1) (-1) 0
  have hlen : 0 < scores.length := List.length_pos.mpr hne
  have h0 : (-1 : ℚ) < scores.get ⟨0, hlen⟩ :=
    lt_of_lt_of_le (by norm_num) (hnn _ (List.get_mem scores 0 hlen))
  obtain ⟨m, hm, e1, e2, e3⟩ := a5 0 hlen h0
  refine ⟨m, hm, ?_, ?_, ?_, e3⟩
  · simpa using e1
  · exact e2
  · intro j hj
    have := a3 j hj
    rwa [e2] at this

/-! ## Claims -/

/-- Claim C5 (counterexample): in a reply with two `Position:` lines the
parser extracts the value of the FIRST matching line, not the last: the
claimed last-match-wins behaviour would give 150 here, the code gives 100. -/
theorem position_parser_not_last_match :
    get_position_from_response "Position: 100\nPosition: 150" = some 100 ∧
      (100 : ℕ) ≠ 150 := by decide

/-- Claim C5 (amended): for every reply, the position extracted by
`get_position_from_response` is the value of the leftmost (FIRST) occurrence
at which the pattern `Position:\s*(\d+)` matches: if the pattern matches at
character offset `k` of the reply and at no earlier offset, the parser
returns the value matched at `k`. -/
theorem position_parser_first_match_wins (resp : String) (k v : ℕ)
    (hk : matchPosAt (resp.toList.drop k) = some v)
    (hbefore : ∀ j, j < k → matchPosAt (resp.toList.drop j) = none) :
    get_position_from_response resp = some v :=
  searchPos_first resp.toList k v hk hbefore

theorem position_parser_first_match_wins_witness :
    get_position_from_response "Position: 100\nPosition: 150" = some 100 :=
  position_parser_first_match_wins "Position: 100\nPosition: 150" 0 100
    (by decide) (fun j hj => absurd hj (Nat.not_lt_zero j))

/-- Claim C6 (counterexample): with two `Max limit:` lines in one reply the
sweep adopts the value of the LAST matching line (the loop keeps overwriting
`max_steps` and never breaks), not the first as claimed: first-match-wins
would give 5000 here, the code gives 7000. -/
theorem max_limit_not_first_match :
    maxLimitParse "Max limit: 5000\nMax limit: 7000" = 7000 ∧
      (7000 : ℤ) ≠ 5000 := by decide

/-- Claim C6 (amended): the travel limit adopted by the sweep is the value of
the LAST line whose `Max limit:` match parses as an integer (later matching
lines that fail to parse are skipped by the `except` clause and do not
overwrite it). -/
theorem max_limit_last_parseable_wins (resp : String) (i : ℕ)
    (hi : i < (splitOnChar '\n' resp.toList).length) (v : ℤ)
    (hv : lineLimitVal ((splitOnChar '\n' resp.toList).get ⟨i, hi⟩) = some v)
    (hafter : ∀ j (hj : j < (splitOnChar '\n' resp.toList).length), i < j →
      lineLimitVal ((splitOnChar '\n' resp.toList).get ⟨j, hj⟩) = none) :
    maxLimitParse resp = v :=
  limitFold_last (splitOnChar '\n' resp.toList) 9000 i hi v hv hafter

theorem max_limit_last_parseable_wins_witness :
    maxLimitParse "noise\nMax limit: 4500" = 4500 :=
  max_limit_last_parseable_wins "noise\nMax limit: 4500" 1 (by decide) 4500
    (by decide)
    (fun j hj hij => by
      have hlen : (splitOnChar '\n' ("noise\nMax limit: 4500").toList).length = 2 :=
        by decide
      rw [hlen] at hj
      omega)

/-- Claim C2 (code evaluated at the failing input): when the camera opens but
the first read fails, the sweep records zero frames and `autofocus_sweep`
raises an uncaught `IndexError` at `frame_positions[-1]` instead of returning
a failure result; no corrective move is issued. -/
theorem zero_frames_sweep_crashes :
    autofocus_sweep envZeroFrames 250 =
      (SweepResult.crash "list index out of range", []) := by decide

/-- Claim C7: if the parsed position first differs from the established last
known position at poll `k` (every earlier poll reports the last known
position or nothing, and poll `k` happens within the timeout), `confirm_move`
returns confirmed with that new position; and with the clock cut off just
before poll `k` it is still unconfirmed — so the confirmation happens exactly
at poll `k`, not earlier and not later. -/
theorem confirm_move_confirms_at_first_change (ch : ℕ → Option ℕ)
    (l p k timeout : ℕ)
    (hne : p ≠ l) (hk : ch k = some p)
    (hbefore : ∀ j, j < k → ch j = some l ∨ ch j = none)
    (hwin : 5 * k < timeout) :
    confirm_move ch timeout (some l) = (true, some p) ∧
      confirm_move ch (5 * k) (some l) = (false, some l) := by
  constructor
  · show confirmLoop ch timeout (timeout + 1) 0 0 (some l) = _
    rw [confirmLoop_advance ch timeout l k (timeout + 1) 0 0
      (fun j h1 h2 => hbefore j (by omega)) (fun j hj => by omega) (by omega)]
    obtain ⟨f, hf⟩ : ∃ f, timeout + 1 - k = f + 1 := ⟨timeout - k, by omega⟩
    rw [hf]
    simp only [Nat.zero_add]
    simp [confirmLoop, hwin, hk, hne]
  · show confirmLoop ch (5 * k) (5 * k + 1) 0 0 (some l) = _
    rw [confirmLoop_advance ch (5 * k) l k (5 * k + 1) 0 0
      (fun j h1 h2 => hbefore j (by omega)) (fun j hj => by omega) (by omega)]
    obtain ⟨f, hf⟩ : ∃ f, 5 * k + 1 - k = f + 1 := ⟨5 * k - k, by omega⟩
    rw [hf]
    simp only [Nat.zero_add]
    simp [confirmLoop]

theorem confirm_move_confirms_at_first_change_witness :
    confirm_move chEx 80 (some 100) = (true, some 150) ∧
      confirm_move chEx 10 (some 100) = (false, some 100) :=
  confirm_move_confirms_at_first_change chEx 100 150 2 80
    (by decide) (by decide)
    (fun j hj => by interval_cases j <;> exact Or.inl (by decide))
    (by omega)

/-- Claim C8: a channel whose reported position never differs from the last
known position makes `confirm_move` return — it cannot loop forever, the
model is a total function — and the result is the warning/timed-out outcome
(flag `false`) carrying the last known position, for every timeout,
in particular the default 8 s one. -/
theorem confirm_move_times_out (ch : ℕ → Option ℕ) (timeout l : ℕ)
    (h : ∀ k, ch k = some l ∨ ch k = none) :
    confirm_move ch timeout (some l) = (false, some l) :=
  confirmLoop_stable ch timeout l h (timeout + 1) 0 0

theorem confirm_move_times_out_witness :
    confirm_move (fun _ => some 100) 80 (some 100) = (false, some 100) :=
  confirm_move_times_out (fun _ => some 100) 80 100 (fun _ => Or.inl rfl)

/-- Claim C9: after the home command the sweep polls status at most 60
cycles; it stops on the first reply carrying the homing marker
(`'Homing complete.'` or case-insensitive `'homed'`); with no marker at all
it uses exactly the 60 cycles with the flag still false; and the sweep's
result does not depend on the homing replies at all — the marker's absence is
non-fatal and the sweep proceeds identically. -/
theorem homing_wait_bounded_nonfatal :
    (∀ r : ℕ → String, (homingLoop r 60 0).2 ≤ 60) ∧
    (∀ (r : ℕ → String) (k : ℕ), k < 60 → hasHomingMarker (r k) = true →
      (∀ j, j < k → hasHomingMarker (r j) = false) →
      homingLoop r 60 0 = (true, k + 1)) ∧
    (∀ r : ℕ → String, (∀ j, hasHomingMarker (r j) = false) →
      homingLoop r 60 0 = (false, 60)) ∧
    (∀ (h1 h2 : ℕ → String) (lr : String) (co : Bool) (rd : ℕ → Bool)
        (sc : ℕ → ℚ) (s : ℕ),
      autofocus_sweep ⟨h1, lr, co, rd, sc⟩ s =
        autofocus_sweep ⟨h2, lr, co, rd, sc⟩ s) := by
  refine ⟨?_, ?_, ?_, ?_⟩
  · intro r
    have := homingLoop_poll_bound r 60 0
    simpa using this
  · intro r k hk hm hb
    have := homingLoop_first_marker r k 60 0 hk (by simpa using hm)
      (fun j hj => by simpa using hb j hj)
    simpa using this
  · intro r h
    have := homingLoop_no_marker r h 60 0
    simpa using this
  · intro h1 h2 lr co rd sc s
    rfl

theorem homing_wait_bounded_nonfatal_witness :
    homingLoop rHomeEx 60 0 = (true, 3) :=
  homing_wait_bounded_nonfatal.2.1 rHomeEx 2 (by omega) (by decide)
    (fun j hj => by interval_cases j <;> decide)

/-- Claim C4: for a sweep run with a positive step size, the recorded step
positions are pairwise non-decreasing and every recorded position is at most
the session's travel limit. -/
theorem sweep_positions_nondecreasing_bounded (env : SweepEnv) (s : ℕ)
    (hs : 0 < s) :
    List.Pairwise (· ≤ ·) (sweepPositions env s) ∧
    ∀ p ∈ sweepPositions env s, p ≤ sweepMaxSteps env := by
  obtain ⟨hmem, hpw⟩ :=
    captureLoopF_props env.reads (sweepMaxSteps env) s
      ((sweepMaxSteps env).toNat + 1) 0 0
  exact ⟨hpw, fun p hp => (hmem p hp).2⟩

theorem sweep_positions_nondecreasing_bounded_witness :
    List.Pairwise (· ≤ ·) (sweepPositions envBest3400 200) ∧
    ∀ p ∈ sweepPositions envBest3400 200, p ≤ sweepMaxSteps envBest3400 :=
  sweep_positions_nondecreasing_bounded envBest3400 200 (by decide)

/-- Claim C10: for a sweep with a positive step size recording at least one
position, every corrective move `autofocus_sweep` sends is non-positive —
the stage is never driven forward past the sweep's final position — and the
same holds for the corrector phase at ANY best index the scan can produce
(`-1 ≤ bi`), including the fallback where the index is at least the number
of recorded positions and the target falls back to 0. -/
theorem corrective_delta_nonpos (env : SweepEnv) (s : ℕ) (hs : 0 < s)
    (hne : sweepPositions env s ≠ []) :
    (∀ d ∈ (autofocus_sweep env s).2, d ≤ 0) ∧
    (∀ bi : ℤ, -1 ≤ bi →
      ∃ t d, correctorPhase (sweepPositions env s) bi = Except.ok (t, d) ∧
        d ≤ 0) := by
  have hgen := correctorPhase_delta_nonpos env s hne
  constructor
  · by_cases hco : env.cameraOpens = false
    · simp [autofocus_sweep, hco]
    · obtain ⟨t, d, hok, hd⟩ :=
        hgen (bestScan (sweepScores env s)).1 (bestScan_idx_ge _)
      intro x hx
      simp only [autofocus_sweep, hco, if_false, hok] at hx
      have : x = d := by simpa using hx
      omega
  · exact hgen

/-- Claim C1: for a scoring phase reading at least one frame with
(non-negative Tenengrad) scores, the selected best index is the argmax of
the scores with ties resolved to the first occurrence: every score is at
most the selected one and every earlier score is strictly below it; in
particular scores `[1, 3, 3, 2]` yield best index 1. -/
theorem best_index_first_argmax (scores : List ℚ) (hne : scores ≠ [])
    (hnn : ∀ x ∈ scores, 0 ≤ x) :
    (∃ m, ∃ hm : m < scores.length,
      (bestScan scores).1 = (m : ℤ) ∧
      (∀ j (hj : j < scores.length),
        scores.get ⟨j, hj⟩ ≤ scores.get ⟨m, hm⟩) ∧
      (∀ j (hj : j < scores.length), j < m →
        scores.get ⟨j, hj⟩ < scores.get ⟨m, hm⟩)) ∧
    (bestScan [(1 : ℚ), 3, 3, 2]).1 = 1 := by
  obtain ⟨m, hm, e1, _, e4, e5⟩ := bestScan_spec scores hne hnn
  exact ⟨⟨m, hm, e1, e4, e5⟩, by decide⟩

theorem best_index_first_argmax_witness :
    (∃ m, ∃ hm : m < ([(1 : ℚ), 3, 3, 2] : List ℚ).length,
      (bestScan [(1 : ℚ), 3, 3, 2]).1 = (m : ℤ) ∧
      (∀ j (hj : j < ([(1 : ℚ), 3, 3, 2] : List ℚ).length),
        ([(1 : ℚ), 3, 3, 2] : List ℚ).get ⟨j, hj⟩ ≤
          ([(1 : ℚ), 3, 3, 2] : List ℚ).get ⟨m, hm⟩) ∧
      (∀ j (hj : j < ([(1 : ℚ), 3, 3, 2] : List ℚ).length), j < m →
        ([(1 : ℚ), 3, 3, 2] : List ℚ).get ⟨j, hj⟩ <
          ([(1 : ℚ), 3, 3, 2] : List ℚ).get ⟨m, hm⟩)) ∧
    (bestScan [(1 : ℚ), 3, 3, 2]).1 = 1 :=
  best_index_first_argmax [1, 3, 3, 2] (by decide) (by decide)

/-- Claim C3: for a sweep that records at least one position and whose best
index is determined (the scores are non-negative, as Tenengrad scores are),
the single corrective command issued by `autofocus_sweep` encodes exactly
`best_position - last_sweep_position`, the position of the best-scoring
frame minus the last recorded sweep position. -/
theorem sweep_corrective_delta (env : SweepEnv) (s : ℕ)
    (hcam : env.cameraOpens = true)
    (hne : sweepPositions env s ≠ [])
    (hnn : ∀ i, 0 ≤ env.scores i) :
    ∃ m, ∃ hm : m < (sweepPositions env s).length,
      (bestScan (sweepScores env s)).1 = (m : ℤ) ∧
      (autofocus_sweep env s).2 =
        [(sweepPositions env s).get ⟨m, hm⟩ -
          (sweepPositions env s).getLast hne] := by
  have hlen : (sweepScores env s).length = (sweepPositions env s).length := by
    simp [sweepScores]
  have hsne : sweepScores env s ≠ [] := by
    have h1 : 0 < (sweepPositions env s).length := List.length_pos.mpr hne
    have h2 : 0 < (sweepScores env s).length := by omega
    exact List.length_pos.mp h2
  have hsnn : ∀ x ∈ sweepScores env s, 0 ≤ x := by
    intro x hx
    simp only [sweepScores, List.mem_map, List.mem_range] at hx
    obtain ⟨i, _, rfl⟩ := hx
    exact hnn i
  obtain ⟨m, hm, e1, _, _, _⟩ := bestScan_spec _ hsne hsnn
  have hm2 : m < (sweepPositions env s).length := hlen ▸ hm
  refine ⟨m, hm2, e1, ?_⟩
  have hco : ¬ (env.cameraOpens = false) := by rw [hcam]; simp
  have hguard : ((m : ℤ)) < ((sweepPositions env s).length : ℤ) := by
    exact_mod_cast hm2
  have hok : correctorPhase (sweepPositions env s) ((m : ℕ) : ℤ) =
      Except.ok ((sweepPositions env s).get ⟨m, hm2⟩,
        (sweepPositions env s).get ⟨m, hm2⟩ -
          (sweepPositions env s).getLast hne) := by
    simp only [correctorPhase, if_pos hguard, pyGet_nonneg _ _ hm2,
      pyGet_neg_one _ hne]
  simp only [autofocus_sweep, hco, if_false, e1, hok]
  simp

theorem sweep_corrective_delta_witness :
    ∃ m, ∃ hm : m < (sweepPositions envBest3400 200).length,
      (bestScan (sweepScores envBest3400 200)).1 = (m : ℤ) ∧
      (autofocus_sweep envBest3400 200).2 =
        [(sweepPositions envBest3400 200).get ⟨m, hm⟩ -
          (sweepPositions envBest3400 200).getLast (by decide)] :=
  sweep_corrective_delta envBest3400 200 rfl (by decide)
    (fun i => by dsimp only [envBest3400]; split <;> norm_num)

theorem corrective_delta_nonpos_witness :
    (∀ d ∈ (autofocus_sweep envBest3400 200).2, d ≤ 0) ∧
    (∀ bi : ℤ, -1 ≤ bi →
      ∃ t d, correctorPhase (sweepPositions envBest3400 200) bi =
          Except.ok (t, d) ∧ d ≤ 0) :=
  corrective_delta_nonpos envBest3400 200 (by decide) (by decide)

end Microscopy
